import Mathlib

/-!
Verification of the Double DQN agent in
`Double_DQN_Classic_Control/cartPole_double_dqn.py`.

The agent's data and operations are embedded shallowly: real-valued tensors
become lists of rationals, the two `nn.Sequential` networks become explicit
weight records with an executable forward pass, the `deque(maxlen=2000)`
replay memory becomes a list with drop-oldest append, and every pseudo-random
draw (`np.random.rand`, `np.random.randint`, `random.sample`) is passed in as
an explicit argument.  The one part that is not given an executable body is
the backward/Adam parameter update inside `replay` (lines 63-68 of the
source): it is abstracted as a function argument `gradStep` that receives the
regression target the code regresses toward and may change only the online
network it is applied to.
-/

namespace DoubleDQN

/-- One recorded interaction step: the 5-tuple
`(state, action, reward, next_state, done)` appended by `remember`. -/
structure Transition where
  state : List ℚ
  action : ℕ
  reward : ℚ
  next_state : List ℚ
  done : Bool
deriving DecidableEq

/-- Replay-memory capacity: `deque(maxlen=2000)` in `__init__`. -/
def capacity : ℕ := 2000

/-- Discount rate `self.gamma = 0.99`. -/
def gamma : ℚ := 99 / 100

/-- `self.epsilon_min = 0.01`. -/
def epsilon_min : ℚ := 1 / 100

/-- `self.epsilon_decay = 0.995`. -/
def epsilon_decay : ℚ := 199 / 200

/-- A fully-connected layer (`nn.Linear`): entry `j` of the output is the dot
product of row `j` of the weight matrix with the input, plus bias `j`. -/
structure Linear where
  weight : List (List ℚ)
  bias : List ℚ
deriving DecidableEq

/-- Dot product of two coordinate lists. -/
def dot (xs ys : List ℚ) : ℚ := (List.zipWith (fun a b => a * b) xs ys).sum

/-- Forward pass of one linear layer. -/
def Linear.forward (l : Linear) (x : List ℚ) : List ℚ :=
  List.zipWith (fun w b => dot w x + b) l.weight l.bias

/-- `nn.ReLU`, applied componentwise. -/
def relu (x : List ℚ) : List ℚ := x.map (fun v => max 0 v)

/-- The value network built by `_build_model`:
`Linear → ReLU → Linear → ReLU → Linear` (widths `state_size`, 24, 24,
`action_size` in the reference configuration; the record itself carries
arbitrary weight shapes). -/
structure Net where
  l1 : Linear
  l2 : Linear
  l3 : Linear
deriving DecidableEq

/-- Forward pass of the whole network (`model(state)`). -/
def Net.forward (n : Net) (x : List ℚ) : List ℚ :=
  Linear.forward n.l3 (relu (Linear.forward n.l2 (relu (Linear.forward n.l1 x))))

/-- `torch.argmax` on a vector of action values: the index of the first
occurrence of the maximal entry (ties break to the first-encountered index). -/
def argmaxIdx : List ℚ → ℕ
  | [] => 0
  | [_] => 0
  | x :: y :: ys =>
    if x < (y :: ys).getD (argmaxIdx (y :: ys)) 0 then argmaxIdx (y :: ys) + 1 else 0

/-- Appending to a `deque` with `maxlen = capacity`: when full, the oldest
(leftmost) element is discarded before the new one is appended. -/
def push (mem : List Transition) (t : Transition) : List Transition :=
  if mem.length < capacity then mem ++ [t] else mem.tail ++ [t]

/-- `random.sample(memory, batch_size)`: the pseudo-random choice is modelled
as an explicit list `idxs` of positions into the memory (distinct positions
when sampling without replacement); the result reads the memory at those
positions, in the order the sampler produced them. -/
def sample (mem : List Transition) (idxs : List ℕ) : List Transition :=
  idxs.filterMap (fun i => mem[i]?)

/-- The epsilon update at the end of `replay`:
`if self.epsilon > self.epsilon_min: self.epsilon *= self.epsilon_decay`. -/
def decayEpsilon (e : ℚ) : ℚ := if epsilon_min < e then e * epsilon_decay else e

/-- The regression target vector built in the loop body of `replay`
(lines 55-62): the online network's prediction for `state` with the entry at
`action` overwritten — by `reward` when `done`, otherwise by
`reward + γ * targetNet(next_state)[argmax evalNet(next_state)]`.  The
discount factor is an explicit parameter here; the agent always passes
`gamma`. -/
def replayTargetG (γ : ℚ) (ev tg : Net) (t : Transition) : List ℚ :=
  let target := Net.forward ev t.state
  if t.done then
    target.set t.action t.reward
  else
    let next_action := argmaxIdx (Net.forward ev t.next_state)
    target.set t.action
      (t.reward + γ * (Net.forward tg t.next_state).getD next_action 0)

/-- The regression target with the agent's fixed discount rate `gamma`. -/
def replayTarget : Net → Net → Transition → List ℚ := replayTargetG gamma

/-- The mutable agent state: sizes, replay memory, exploration rate, and the
online (`eval_model`) / target (`target_model`) network pair.  The numeric
hyperparameters are constants of the constructor and are kept as the global
constants above. -/
structure Agent where
  state_size : ℕ
  action_size : ℕ
  memory : List Transition
  epsilon : ℚ
  eval_model : Net
  target_model : Net
deriving DecidableEq

/-- `update_target_model`: copy the online network's parameters into the
target network. -/
def Agent.update_target_model (a : Agent) : Agent :=
  { a with target_model := a.eval_model }

/-- The constructor `__init__`: empty memory, `epsilon = 1.0`, two freshly
built networks (their externally-initialized weights are the arguments `ie`
and `it`), and a final call to `update_target_model`. -/
def mkAgent (state_size action_size : ℕ) (ie it : Net) : Agent :=
  Agent.update_target_model
    { state_size := state_size, action_size := action_size, memory := [],
      epsilon := 1, eval_model := ie, target_model := it }

/-- `remember`: append one transition to the replay memory. -/
def Agent.remember (a : Agent) (t : Transition) : Agent :=
  { a with memory := push a.memory t }

/-- `act`: the two pseudo-random draws (`np.random.rand()` in `[0,1)` and
`np.random.randint(action_size)`) are passed in explicitly; the method
returns the chosen action together with the agent, which it leaves
unmodified. -/
def Agent.act (a : Agent) (r : ℚ) (randAction : ℕ) (state : List ℚ) : ℕ × Agent :=
  (if r ≤ a.epsilon then randAction
   else argmaxIdx (Net.forward a.eval_model state), a)

/-- One `replay(batch_size)` call.  If the memory holds fewer than
`batch_size` transitions the call returns immediately.  Otherwise the sampled
transitions are processed sequentially: each application of `gradStep` (the
abstracted backward/Adam update of lines 63-68) sees the network produced by
the previous one, and receives the regression target built from that current
online network and the fixed target network.  Finally epsilon is decayed. -/
def Agent.replay (gradStep : Net → List ℚ → Transition → Net) (a : Agent)
    (batch_size : ℕ) (idxs : List ℕ) : Agent :=
  if a.memory.length < batch_size then a
  else
    { a with
      eval_model :=
        (sample a.memory idxs).foldl
          (fun net t => gradStep net (replayTarget net a.target_model t) t)
          a.eval_model,
      epsilon := decayEpsilon a.epsilon }

/-- The exploration rate after `n` replay calls that each had sufficient
experience: each such call applies `decayEpsilon` once, starting from the
constructor's `epsilon = 1.0`. -/
def epsAfter : ℕ → ℚ
  | 0 => 1
  | n + 1 => decayEpsilon (epsAfter n)

/-- The per-step body of the training loop in `run_ddqn` (lines 91-95): the
environment reward is overridden to `-10` on termination, the resulting
transition is remembered, and the (overridden) reward is added to the episode
return. -/
def loopStep (a : Agent) (state : List ℚ) (action : ℕ) (next_state : List ℚ)
    (envReward : ℚ) (d : Bool) (total : ℚ) : Agent × ℚ :=
  let reward := if d then -10 else envReward
  (Agent.remember a ⟨state, action, reward, next_state, d⟩, total + reward)

/-- Agent states reachable through the public operations, starting from the
constructor. -/
inductive Reach : Agent → Prop where
  | init : ∀ ss as ie it, Reach (mkAgent ss as ie it)
  | remember : ∀ a t, Reach a → Reach (Agent.remember a t)
  | act : ∀ a r ra s, Reach a → Reach (Agent.act a r ra s).2
  | replay : ∀ g a bs idxs, Reach a → Reach (Agent.replay g a bs idxs)
  | sync : ∀ a, Reach a → Reach (Agent.update_target_model a)

/-- A concrete (empty-weight) network, for instantiating general theorems. -/
def net0 : Net := ⟨⟨[], []⟩, ⟨[], []⟩, ⟨[], []⟩⟩

/-- A concrete 1-input 2-output network whose action-value vector on input
`[1]` is `[1, 0]` (argmax 0). -/
def netA : Net := ⟨⟨[[1]], [0]⟩, ⟨[[1]], [0]⟩, ⟨[[1], [0]], [0, 0]⟩⟩

/-- A concrete 1-input 2-output network whose action-value vector on input
`[1]` is `[0, 1]` (argmax 1, deliberately different from `netA`). -/
def netB : Net := ⟨⟨[[1]], [0]⟩, ⟨[[1]], [0]⟩, ⟨[[0], [1]], [0, 0]⟩⟩

/-- A trivial parameter update that leaves the network unchanged. -/
def gradStep0 : Net → List ℚ → Transition → Net := fun n _ _ => n

/-- A concrete non-terminal transition. -/
def tNonterminal : Transition := ⟨[1], 0, 5, [1], false⟩

/-- A concrete terminal transition with the driver's override reward. -/
def tTerminal : Transition := ⟨[1], 0, -10, [1], true⟩

/-- A network that, in some reachable agent state, is the online network's
current parameter set. -/
def WasOnlineSnapshot (w : Net) : Prop := ∃ b, Reach b ∧ b.eval_model = w

lemma getD_set_self {l : List ℚ} {n : ℕ} {a : ℚ} (h : n < l.length) :
    (l.set n a).getD n 0 = a := by
  simp [List.getD_eq_getElem?_getD, List.getElem?_set_eq_of_lt a h]

lemma getD_set_ne {l : List ℚ} {m n : ℕ} {a : ℚ} (h : m ≠ n) :
    (l.set n a).getD m 0 = l.getD m 0 := by
  simp [List.getD_eq_getElem?_getD, List.getElem?_set_ne (Ne.symm h)]

lemma replay_target_model (gradStep : Net → List ℚ → Transition → Net)
    (a : Agent) (bs : ℕ) (idxs : List ℕ) :
    (Agent.replay gradStep a bs idxs).target_model = a.target_model := by
  unfold Agent.replay
  split <;> rfl

/-- Claim C1: in a learning step, for every sampled transition with
`done = false`, the regression target at index `action` equals
`reward + gamma * targetNet(next_state)[a*]` where `a*` is the arg-max of the
ONLINE network's action values at `next_state`: selection online, evaluation
target. -/
theorem replay_target_double_split (ev tg : Net) (t : Transition)
    (hdone : t.done = false)
    (hact : t.action < (Net.forward ev t.state).length) :
    (replayTarget ev tg t).getD t.action 0
      = t.reward + gamma *
          (Net.forward tg t.next_state).getD
            (argmaxIdx (Net.forward ev t.next_state)) 0 := by
  unfold replayTarget replayTargetG
  simp only [hdone, Bool.false_eq_true, if_false]
  exact getD_set_self hact

/-- Witness for C1, on two networks whose arg-maxes at `next_state`
deliberately differ. -/
theorem replay_target_double_split_witness :
    tNonterminal.done = false
    ∧ tNonterminal.action < (Net.forward netA tNonterminal.state).length
    ∧ (replayTarget netA netB tNonterminal).getD tNonterminal.action 0
        = tNonterminal.reward + gamma *
            (Net.forward netB tNonterminal.next_state).getD
              (argmaxIdx (Net.forward netA tNonterminal.next_state)) 0 :=
  ⟨rfl, by decide,
    replay_target_double_split netA netB tNonterminal rfl (by decide)⟩

/-- Claim C2: for a sampled transition with `done = true`, the regression
target at index `action` is exactly `reward`, independent of the discount
factor and of `next_state`; every other entry equals the online network's
current prediction for `state`. -/
theorem replay_target_terminal (γ : ℚ) (ev tg : Net) (t : Transition)
    (hdone : t.done = true)
    (hact : t.action < (Net.forward ev t.state).length) :
    (replayTarget ev tg t).getD t.action 0 = t.reward
    ∧ (∀ i, i ≠ t.action →
        (replayTarget ev tg t).getD i 0 = (Net.forward ev t.state).getD i 0)
    ∧ ∀ ns : List ℚ,
        replayTargetG γ ev tg { t with next_state := ns } = replayTarget ev tg t := by
  refine ⟨?_, ?_, ?_⟩
  · unfold replayTarget replayTargetG
    simp only [hdone, if_true]
    exact getD_set_self hact
  · intro i hi
    unfold replayTarget replayTargetG
    simp only [hdone, if_true]
    exact getD_set_ne hi
  · intro ns
    unfold replayTarget replayTargetG
    simp [hdone]

/-- Witness for C2: a terminal transition's target holds `reward = -10` at its
action, keeps the online prediction elsewhere, and is unchanged when the
discount factor is replaced by 0 and `next_state` by a different vector. -/
theorem replay_target_terminal_witness :
    tTerminal.done = true
    ∧ tTerminal.action < (Net.forward netA tTerminal.state).length
    ∧ (replayTarget netA netB tTerminal).getD tTerminal.action 0 = tTerminal.reward
    ∧ (replayTarget netA netB tTerminal).getD 1 0
        = (Net.forward netA tTerminal.state).getD 1 0
    ∧ replayTargetG 0 netA netB { tTerminal with next_state := [7] }
        = replayTarget netA netB tTerminal :=
  ⟨rfl, by decide,
    (replay_target_terminal 0 netA netB tTerminal rfl (by decide)).1,
    (replay_target_terminal 0 netA netB tTerminal rfl (by decide)).2.1 1 (by decide),
    (replay_target_terminal 0 netA netB tTerminal rfl (by decide)).2.2 [7]⟩

/-- Claim C4: when the replay memory holds fewer than `batch_size`
transitions, a `replay` call is a no-op: no error, and the whole agent state
(memory, epsilon, both networks) is returned unchanged. -/
theorem replay_insufficient (gradStep : Net → List ℚ → Transition → Net)
    (a : Agent) (bs : ℕ) (idxs : List ℕ)
    (h : a.memory.length < bs) :
    Agent.replay gradStep a bs idxs = a := by
  unfold Agent.replay
  simp [h]

/-- Witness for C4: a freshly constructed agent (empty memory) is unchanged by
`replay(32)`. -/
theorem replay_insufficient_witness :
    (mkAgent 4 2 net0 net0).memory.length < 32
    ∧ Agent.replay gradStep0 (mkAgent 4 2 net0 net0) 32 [] = mkAgent 4 2 net0 net0 :=
  ⟨by decide, replay_insufficient gradStep0 (mkAgent 4 2 net0 net0) 32 [] (by decide)⟩

/-- Claim C7: immediately after `update_target_model` the target and online
networks agree on every input, and a subsequent `replay` call leaves the
target network's parameters — hence its output on any fixed input —
unchanged. -/
theorem target_sync_invariance (a : Agent)
    (gradStep : Net → List ℚ → Transition → Net)
    (bs : ℕ) (idxs : List ℕ) (x : List ℚ) :
    Net.forward (Agent.update_target_model a).target_model x
      = Net.forward (Agent.update_target_model a).eval_model x
    ∧ (Agent.replay gradStep (Agent.update_target_model a) bs idxs).target_model
        = (Agent.update_target_model a).target_model
    ∧ Net.forward
        (Agent.replay gradStep (Agent.update_target_model a) bs idxs).target_model x
      = Net.forward (Agent.update_target_model a).eval_model x := by
  refine ⟨rfl, replay_target_model gradStep (Agent.update_target_model a) bs idxs, ?_⟩
  rw [replay_target_model]
  rfl

/-- Claim C9: the constructor already synchronizes the two networks, and along
every reachable sequence of operations the target network's parameters are a
snapshot of the online network's parameters at some reachable moment. -/
theorem target_always_snapshot :
    (∀ ss as ie it, (mkAgent ss as ie it).target_model = (mkAgent ss as ie it).eval_model)
    ∧ ∀ a, Reach a → WasOnlineSnapshot a.target_model := by
  constructor
  · intro ss as ie it
    rfl
  · intro a h
    induction h with
    | init ss as ie it => exact ⟨mkAgent ss as ie it, Reach.init ss as ie it, rfl⟩
    | remember a t _ ih => exact ih
    | act a r ra s _ ih => exact ih
    | replay g a bs idxs _ ih =>
      obtain ⟨b, hb, he⟩ := ih
      exact ⟨b, hb, he.trans (replay_target_model g a bs idxs).symm⟩
    | sync a ha _ => exact ⟨a, ha, rfl⟩

/-- Witness for C9: the freshly constructed agent's target network is an online
snapshot. -/
theorem target_always_snapshot_witness :
    WasOnlineSnapshot (mkAgent 4 2 netA netB).target_model :=
  target_always_snapshot.2 (mkAgent 4 2 netA netB) (Reach.init 4 2 netA netB)

/-- Claim C10: in the training-loop body, a terminal step stores (and adds to
the episode return) the overridden reward `-10`; a non-terminal step stores
the environment's reward unchanged. -/
theorem loop_reward_override (a : Agent) (s : List ℚ) (ac : ℕ) (ns : List ℚ)
    (r : ℚ) (d : Bool) (total : ℚ) :
    (d = true → loopStep a s ac ns r d total
        = (Agent.remember a ⟨s, ac, -10, ns, true⟩, total + (-10)))
    ∧ (d = false → loopStep a s ac ns r d total
        = (Agent.remember a ⟨s, ac, r, ns, false⟩, total + r)) := by
  constructor <;> intro h <;> subst h <;> simp [loopStep]

/-- Witness for C10, at both values of `done`. -/
theorem loop_reward_override_witness :
    loopStep (mkAgent 4 2 net0 net0) [1] 0 [2] 3 true 0
      = (Agent.remember (mkAgent 4 2 net0 net0) ⟨[1], 0, -10, [2], true⟩, 0 + (-10))
    ∧ loopStep (mkAgent 4 2 net0 net0) [1] 0 [2] 3 false 0
      = (Agent.remember (mkAgent 4 2 net0 net0) ⟨[1], 0, 3, [2], false⟩, 0 + 3) :=
  ⟨(loop_reward_override (mkAgent 4 2 net0 net0) [1] 0 [2] 3 true 0).1 rfl,
   (loop_reward_override (mkAgent 4 2 net0 net0) [1] 0 [2] 3 false 0).2 rfl⟩

lemma argmaxIdx_lt_length (l : List ℚ) (h : l ≠ []) : argmaxIdx l < l.length := by
  induction l with
  | nil => exact absurd rfl h
  | cons x xs ih =>
    cases xs with
    | nil => simp [argmaxIdx]
    | cons y ys =>
      simp only [argmaxIdx]
      split
      · have := ih (by simp)
        simpa [Nat.succ_lt_succ_iff] using this
      · simp

lemma le_getD_argmaxIdx (l : List ℚ) :
    ∀ i, i < l.length → l.getD i 0 ≤ l.getD (argmaxIdx l) 0 := by
  induction l with
  | nil => intro i hi; simp at hi
  | cons x xs ih =>
    cases xs with
    | nil =>
      intro i hi
      have h0 : i = 0 := by simpa using hi
      subst h0
      simp [argmaxIdx]
    | cons y ys =>
      intro i hi
      simp only [argmaxIdx]
      by_cases h : x < (y :: ys).getD (argmaxIdx (y :: ys)) 0
      · rw [if_pos h, List.getD_cons_succ]
        cases i with
        | zero => simpa using le_of_lt h
        | succ j =>
          rw [List.getD_cons_succ]
          exact ih j (by simpa using hi)
      · rw [if_neg h, List.getD_cons_zero]
        cases i with
        | zero => simp
        | succ j =>
          rw [List.getD_cons_succ]
          exact le_trans (ih j (by simpa using hi)) (not_lt.mp h)

lemma getD_lt_of_lt_argmaxIdx (l : List ℚ) :
    ∀ j, j < argmaxIdx l → l.getD j 0 < l.getD (argmaxIdx l) 0 := by
  induction l with
  | nil => intro j hj; simp [argmaxIdx] at hj
  | cons x xs ih =>
    cases xs with
    | nil => intro j hj; simp [argmaxIdx] at hj
    | cons y ys =>
      intro j hj
      simp only [argmaxIdx] at hj ⊢
      by_cases h : x < (y :: ys).getD (argmaxIdx (y :: ys)) 0
      · rw [if_pos h] at hj ⊢
        rw [List.getD_cons_succ]
        cases j with
        | zero => simpa using h
        | succ k =>
          rw [List.getD_cons_succ]
          exact ih k (by omega)
      · rw [if_neg h] at hj
        exact absurd hj (by omega)

/-- Claim C5: `act` consults the explicit random draws: when `r ≤ epsilon` it
returns the supplied random action (kept inside `[0, action_count)`), and
otherwise the first index of a maximal entry of the ONLINE network's
action-value vector for `state` (earlier indices hold strictly smaller
values); in both cases the agent state is returned unmodified. -/
theorem act_eps_greedy (a : Agent) (r : ℚ) (ra : ℕ) (s : List ℚ)
    (hra : ra < a.action_size) :
    (Agent.act a r ra s).2 = a
    ∧ (r ≤ a.epsilon →
        (Agent.act a r ra s).1 = ra ∧ (Agent.act a r ra s).1 < a.action_size)
    ∧ (a.epsilon < r →
        (Agent.act a r ra s).1 = argmaxIdx (Net.forward a.eval_model s)
        ∧ (Net.forward a.eval_model s ≠ [] →
            (Agent.act a r ra s).1 < (Net.forward a.eval_model s).length)
        ∧ (∀ i, i < (Net.forward a.eval_model s).length →
            (Net.forward a.eval_model s).getD i 0
              ≤ (Net.forward a.eval_model s).getD (Agent.act a r ra s).1 0)
        ∧ ∀ j, j < (Agent.act a r ra s).1 →
            (Net.forward a.eval_model s).getD j 0
              < (Net.forward a.eval_model s).getD (Agent.act a r ra s).1 0) := by
  refine ⟨rfl, fun hle => ?_, fun hgt => ?_⟩
  · unfold Agent.act
    rw [if_pos hle]
    exact ⟨rfl, hra⟩
  · have hne : ¬ r ≤ a.epsilon := not_le.mpr hgt
    unfold Agent.act
    rw [if_neg hne]
    exact ⟨rfl,
      fun h => argmaxIdx_lt_length _ h,
      fun i hi => le_getD_argmaxIdx _ i hi,
      fun j hj => getD_lt_of_lt_argmaxIdx _ j hj⟩

/-- Witness for C5: one exploring call (returns the random draw, agent
unchanged) and one exploiting call (returns the online arg-max, here index 0,
which dominates index 1). -/
theorem act_eps_greedy_witness :
    (Agent.act (mkAgent 1 2 netA netB) 1 1 [1]).2 = mkAgent 1 2 netA netB
    ∧ (Agent.act (mkAgent 1 2 netA netB) 1 1 [1]).1 = 1
    ∧ (Agent.act (mkAgent 1 2 netA netB) 1 1 [1]).1 < (mkAgent 1 2 netA netB).action_size
    ∧ (Agent.act (mkAgent 1 2 netA netB) 2 1 [1]).1
        = argmaxIdx (Net.forward (mkAgent 1 2 netA netB).eval_model [1])
    ∧ (Net.forward (mkAgent 1 2 netA netB).eval_model [1]).getD 1 0
        ≤ (Net.forward (mkAgent 1 2 netA netB).eval_model [1]).getD
            (Agent.act (mkAgent 1 2 netA netB) 2 1 [1]).1 0 :=
  ⟨(act_eps_greedy (mkAgent 1 2 netA netB) 1 1 [1] (by decide)).1,
   ((act_eps_greedy (mkAgent 1 2 netA netB) 1 1 [1] (by decide)).2.1 (by decide)).1,
   ((act_eps_greedy (mkAgent 1 2 netA netB) 1 1 [1] (by decide)).2.1 (by decide)).2,
   ((act_eps_greedy (mkAgent 1 2 netA netB) 2 1 [1] (by decide)).2.2 (by decide)).1,
   ((act_eps_greedy (mkAgent 1 2 netA netB) 2 1 [1] (by decide)).2.2 (by decide)).2.2.1
     1 (by decide)⟩

lemma push_length_le (mem : List Transition) (t : Transition)
    (h : mem.length ≤ capacity) : (push mem t).length ≤ capacity := by
  have hc : capacity = 2000 := rfl
  unfold push
  split
  · simp only [List.length_append, List.length_cons, List.length_nil]
    omega
  · simp only [List.length_append, List.length_tail, List.length_cons, List.length_nil]
    omega

lemma foldl_push_eq (l : List Transition) :
    List.foldl push [] l = l.drop (l.length - capacity) := by
  have hc : capacity = 2000 := rfl
  induction l using List.reverseRecOn with
  | nil => simp
  | append_singleton l' x ih =>
    rw [List.foldl_append, List.foldl_cons, List.foldl_nil, ih]
    simp only [List.length_append, List.length_cons, List.length_nil]
    by_cases hlen : l'.length < capacity
    · have h0 : l'.length - capacity = 0 := by omega
      have h1 : l'.length + 1 - capacity = 0 := by omega
      rw [h0, List.drop_zero, h1, List.drop_zero]
      unfold push
      rw [if_pos hlen]
    · have hdlen : (l'.drop (l'.length - capacity)).length = capacity := by
        simp only [List.length_drop]
        omega
      unfold push
      rw [if_neg (by omega)]
      rw [List.tail_drop]
      have harith : l'.length + 1 - capacity = l'.length - capacity + 1 := by omega
      rw [harith, List.drop_append_of_le_length (by omega)]

/-- Claim C6: one append never pushes the memory length above its capacity,
and after inserting `capacity + k` transitions (with `k > 0`) from empty the
memory holds exactly the last `capacity` transitions in insertion order — the
first `k` inserted ones have been evicted (FIFO). -/
theorem memory_fifo (mem : List Transition) (t : Transition)
    (l : List Transition) (k : ℕ)
    (hmem : mem.length ≤ capacity) (hl : l.length = capacity + k) (hk : 0 < k) :
    (push mem t).length ≤ capacity
    ∧ List.foldl push [] l = l.drop k
    ∧ (List.foldl push [] l).length = capacity := by
  have hc : capacity = 2000 := rfl
  refine ⟨push_length_le mem t hmem, ?_, ?_⟩
  · rw [foldl_push_eq]
    have hdk : l.length - capacity = k := by omega
    rw [hdk]
  · rw [foldl_push_eq]
    simp only [List.length_drop]
    omega

/-- Witness for C6: inserting 2001 copies of a transition leaves exactly the
last 2000 of them. -/
theorem memory_fifo_witness :
    ([] : List Transition).length ≤ capacity
    ∧ (List.replicate 2001 tTerminal).length = capacity + 1
    ∧ List.foldl push [] (List.replicate 2001 tTerminal)
        = (List.replicate 2001 tTerminal).drop 1
    ∧ (List.foldl push [] (List.replicate 2001 tTerminal)).length = capacity :=
  ⟨Nat.zero_le capacity,
   by rw [List.length_replicate]; rfl,
   (memory_fifo [] tTerminal (List.replicate 2001 tTerminal) 1
      (Nat.zero_le capacity) (by rw [List.length_replicate]; rfl) Nat.one_pos).2.1,
   (memory_fifo [] tTerminal (List.replicate 2001 tTerminal) 1
      (Nat.zero_le capacity) (by rw [List.length_replicate]; rfl) Nat.one_pos).2.2⟩

lemma decayEpsilon_le (e : ℚ) : decayEpsilon e ≤ e := by
  unfold decayEpsilon
  split
  · rename_i h
    have he : (0:ℚ) ≤ e :=
      le_of_lt (lt_trans (by norm_num [epsilon_min]) h)
    exact mul_le_of_le_one_right he (by norm_num [epsilon_decay])
  · exact le_refl e

lemma epsilon_min_lt_pow918 : epsilon_min < epsilon_decay ^ 918 := by
  unfold epsilon_min epsilon_decay
  norm_num

lemma pow919_lt_epsilon_min : epsilon_decay ^ 919 < epsilon_min := by
  unfold epsilon_min epsilon_decay
  norm_num

lemma epsilon_min_lt_pow (k : ℕ) (hk : k ≤ 918) : epsilon_min < epsilon_decay ^ k :=
  lt_of_lt_of_le epsilon_min_lt_pow918
    (pow_le_pow_of_le_one (by norm_num [epsilon_decay]) (by norm_num [epsilon_decay]) hk)

lemma epsAfter_eq_pow (n : ℕ) (hn : n ≤ 919) : epsAfter n = epsilon_decay ^ n := by
  induction n with
  | zero => simp [epsAfter]
  | succ n ih =>
    rw [epsAfter, ih (by omega)]
    unfold decayEpsilon
    rw [if_pos (epsilon_min_lt_pow n (by omega))]
    ring

lemma epsAfter_stable (n : ℕ) (hn : 919 ≤ n) : epsAfter n = epsilon_decay ^ 919 := by
  induction n with
  | zero => omega
  | succ n ih =>
    rcases Nat.lt_or_ge 919 (n + 1) with h | h
    · rw [epsAfter, ih (by omega)]
      unfold decayEpsilon
      rw [if_neg (not_lt.mpr (le_of_lt pow919_lt_epsilon_min))]
    · have : n + 1 = 919 := by omega
      rw [this]
      exact epsAfter_eq_pow 919 le_rfl

lemma epsAfter_lower (n : ℕ) : epsilon_min * epsilon_decay ≤ epsAfter n := by
  induction n with
  | zero =>
    show epsilon_min * epsilon_decay ≤ 1
    norm_num [epsilon_min, epsilon_decay]
  | succ n ih =>
    show epsilon_min * epsilon_decay ≤ decayEpsilon (epsAfter n)
    unfold decayEpsilon
    split
    · rename_i h
      exact mul_le_mul_of_nonneg_right (le_of_lt h) (by norm_num [epsilon_decay])
    · exact ih

/-- Claim C3 counterexample: after 919 decays (each from a learning step with
sufficient experience) epsilon is strictly below `epsilon_min`, so it is not
`max epsilon_min (epsilon_decay ^ n)`: the code multiplies first and only then
stops decaying, so epsilon ends just below the floor rather than on it. -/
theorem epsilon_decay_claim_counterexample :
    epsAfter 919 < epsilon_min
    ∧ epsAfter 919 ≠ max epsilon_min (1 * epsilon_decay ^ 919) := by
  have h : epsAfter 919 = epsilon_decay ^ 919 := epsAfter_eq_pow 919 le_rfl
  constructor
  · rw [h]
    exact pow919_lt_epsilon_min
  · rw [h, one_mul, max_eq_left (le_of_lt pow919_lt_epsilon_min)]
    exact ne_of_lt pow919_lt_epsilon_min

/-- Claim C3 (amended): a replay call with sufficient experience applies one
`decayEpsilon` step; starting from `epsilon = 1.0`, after `n` such steps
epsilon equals `epsilon_decay ^ min n 919` — it decays geometrically while all
previous values exceed `epsilon_min`, then the decay that lands strictly below
`epsilon_min` is the last one, and epsilon stays at `epsilon_decay ^ 919`
(just below `epsilon_min`) forever.  Epsilon is monotonically non-increasing
and never falls below `epsilon_min * epsilon_decay`. -/
theorem epsilon_decay_amended (n : ℕ) (gradStep : Net → List ℚ → Transition → Net)
    (a : Agent) (bs : ℕ) (idxs : List ℕ) (hbs : bs ≤ a.memory.length) :
    epsAfter (n + 1) ≤ epsAfter n
    ∧ epsilon_min * epsilon_decay ≤ epsAfter n
    ∧ epsAfter n = epsilon_decay ^ (min n 919)
    ∧ (Agent.replay gradStep a bs idxs).epsilon = decayEpsilon a.epsilon := by
  refine ⟨decayEpsilon_le (epsAfter n), epsAfter_lower n, ?_, ?_⟩
  · rcases le_or_lt n 919 with h | h
    · rw [min_eq_left h]
      exact epsAfter_eq_pow n h
    · rw [min_eq_right (by omega)]
      exact epsAfter_stable n (by omega)
  · unfold Agent.replay
    rw [if_neg (by omega)]

/-- Witness for C3 (amended), at `n = 0` and a replay call on a freshly
constructed agent with `batch_size = 0`. -/
theorem epsilon_decay_amended_witness :
    0 ≤ (mkAgent 4 2 net0 net0).memory.length
    ∧ epsAfter 1 ≤ epsAfter 0
    ∧ epsilon_min * epsilon_decay ≤ epsAfter 0
    ∧ epsAfter 0 = epsilon_decay ^ (min 0 919)
    ∧ (Agent.replay gradStep0 (mkAgent 4 2 net0 net0) 0 []).epsilon
        = decayEpsilon (mkAgent 4 2 net0 net0).epsilon :=
  ⟨Nat.zero_le _,
   (epsilon_decay_amended 0 gradStep0 (mkAgent 4 2 net0 net0) 0 [] (Nat.zero_le _)).1,
   (epsilon_decay_amended 0 gradStep0 (mkAgent 4 2 net0 net0) 0 [] (Nat.zero_le _)).2.1,
   (epsilon_decay_amended 0 gradStep0 (mkAgent 4 2 net0 net0) 0 [] (Nat.zero_le _)).2.2.1,
   (epsilon_decay_amended 0 gradStep0 (mkAgent 4 2 net0 net0) 0 [] (Nat.zero_le _)).2.2.2⟩

lemma filterMap_getElem_cons (x : Transition) (mem : List Transition) :
    ∀ (idxs : List ℕ), (∀ i ∈ idxs, 0 < i) →
      idxs.filterMap (fun i => (x :: mem)[i]?)
        = (idxs.map Nat.pred).filterMap (fun i => mem[i]?) := by
  intro idxs h
  induction idxs with
  | nil => rfl
  | cons j rest ih =>
    have hj : 0 < j := h j (by simp)
    obtain ⟨k, rfl⟩ : ∃ k, j = k + 1 := ⟨j - 1, by omega⟩
    have htail := ih (fun i hi => h i (by simp [hi]))
    cases hmk : mem[k]? with
    | none =>
      simp only [List.filterMap_cons, List.map_cons, List.getElem?_cons_succ,
        Nat.pred_succ, hmk, htail]
    | some v =>
      simp only [List.filterMap_cons, List.map_cons, List.getElem?_cons_succ,
        Nat.pred_succ, hmk, htail]

lemma filterMap_getElem_sublist (mem : List Transition) :
    ∀ (idxs : List ℕ), idxs.Pairwise (· < ·) →
      List.Sublist (idxs.filterMap (fun i => mem[i]?)) mem := by
  induction mem with
  | nil =>
    intro idxs _
    have hnil : idxs.filterMap (fun i => ([] : List Transition)[i]?) = [] :=
      List.filterMap_eq_nil_iff.mpr (by intro i _; simp)
    rw [hnil]
  | cons x mem ih =>
    intro idxs hp
    cases idxs with
    | nil => simp
    | cons j rest =>
      have hrest₀ := (List.pairwise_cons.mp hp).1
      rcases Nat.eq_zero_or_pos j with hj | hj
      · subst hj
        have hpos : ∀ i ∈ rest, 0 < i := fun i hi => hrest₀ i hi
        have hpred : (rest.map Nat.pred).Pairwise (· < ·) := by
          rw [List.pairwise_map]
          refine List.Pairwise.imp_of_mem ?_ (List.pairwise_cons.mp hp).2
          intro a b ha _ hab
          have := hpos a ha
          simp only [Nat.pred_eq_sub_one]
          omega
        simp only [List.filterMap_cons, List.getElem?_cons_zero]
        rw [filterMap_getElem_cons x mem rest hpos]
        exact List.Sublist.cons₂ x (ih (rest.map Nat.pred) hpred)
      · have hpos : ∀ i ∈ j :: rest, 0 < i := by
          intro i hi
          rcases List.mem_cons.mp hi with rfl | hi
          · exact hj
          · exact lt_trans hj (hrest₀ i hi)
        have hpred : ((j :: rest).map Nat.pred).Pairwise (· < ·) := by
          rw [List.pairwise_map]
          refine List.Pairwise.imp_of_mem ?_ hp
          intro a b ha _ hab
          have := hpos a ha
          simp only [Nat.pred_eq_sub_one]
          omega
        rw [filterMap_getElem_cons x mem (j :: rest) hpos]
        exact List.Sublist.cons x (ih ((j :: rest).map Nat.pred) hpred)

lemma sample_length (mem : List Transition) :
    ∀ (idxs : List ℕ), (∀ i ∈ idxs, i < mem.length) →
      (sample mem idxs).length = idxs.length := by
  intro idxs h
  induction idxs with
  | nil => rfl
  | cons j rest ih =>
    have hj : j < mem.length := h j (by simp)
    have htail := ih (fun i hi => h i (by simp [hi]))
    unfold sample at htail ⊢
    rw [List.filterMap_cons, List.getElem?_eq_getElem hj]
    simp [htail]

/-- Claim C8: sampling `b = idxs.length` positions (pairwise distinct, all in
range — the contract of `random.sample`) from a store returns exactly `b`
elements that form a sub-permutation of the store: `b` of the store's entries
taken without replacement, hence each returned element is held in the store. -/
theorem sample_legal (mem : List Transition) (idxs : List ℕ)
    (hb : ∀ i ∈ idxs, i < mem.length) (hnd : idxs.Nodup) :
    (sample mem idxs).length = idxs.length
    ∧ List.Subperm (sample mem idxs) mem
    ∧ ∀ t ∈ sample mem idxs, t ∈ mem := by
  have hperm : (idxs.insertionSort (· ≤ ·)).Perm idxs :=
    List.perm_insertionSort (· ≤ ·) idxs
  have hsorted : (idxs.insertionSort (· ≤ ·)).Sorted (· ≤ ·) :=
    List.sorted_insertionSort (· ≤ ·) idxs
  have hndjs : (idxs.insertionSort (· ≤ ·)).Nodup := hperm.nodup_iff.mpr hnd
  have hlt : (idxs.insertionSort (· ≤ ·)).Pairwise (· < ·) :=
    hsorted.lt_of_le hndjs
  have hsub : List.Sublist ((idxs.insertionSort (· ≤ ·)).filterMap (fun i => mem[i]?)) mem :=
    filterMap_getElem_sublist mem (idxs.insertionSort (· ≤ ·)) hlt
  have hp2 : (sample mem idxs).Perm
      ((idxs.insertionSort (· ≤ ·)).filterMap (fun i => mem[i]?)) :=
    List.Perm.filterMap _ hperm.symm
  have hsp : List.Subperm (sample mem idxs) mem := hp2.subperm.trans hsub.subperm
  exact ⟨sample_length mem idxs hb, hsp, fun t ht => hsp.subset ht⟩

/-- Witness for C8: sampling positions `[1, 0]` from a two-element store
returns both elements, in sampler order. -/
theorem sample_legal_witness :
    (∀ i ∈ [1, 0], i < [tTerminal, tNonterminal].length)
    ∧ ([1, 0] : List ℕ).Nodup
    ∧ (sample [tTerminal, tNonterminal] [1, 0]).length = ([1, 0] : List ℕ).length
    ∧ List.Subperm (sample [tTerminal, tNonterminal] [1, 0]) [tTerminal, tNonterminal]
    ∧ tNonterminal ∈ [tTerminal, tNonterminal] :=
  ⟨by decide, by decide,
   (sample_legal [tTerminal, tNonterminal] [1, 0] (by decide) (by decide)).1,
   (sample_legal [tTerminal, tNonterminal] [1, 0] (by decide) (by decide)).2.1,
   (sample_legal [tTerminal, tNonterminal] [1, 0] (by decide) (by decide)).2.2
     tNonterminal (by decide)⟩

end DoubleDQN
